import Mathlib

/-!
# Verification of the SQL schema describers

This file gives a shallow embedding, in Lean 4, of the two schema describers
of the repository
(`src/libs/sql-schema-describer/src/postgres.rs` and
`src/libs/sql-schema-describer/src/sqlite.rs`), together with theorems that
settle the frozen claims about them.

Conventions of the embedding:

* Rust functions that can `panic!` are embedded as functions into
  `RustResult`, whose `panicked` constructor records the panic message.
  A Rust function that cannot panic is embedded as a plain total function.
* The injected database connection (`query_raw`) is embedded by passing the
  result rows of each introspection query as explicit inputs: a row is a
  structure whose fields are the columns the Rust code reads from the row.
* Rust `HashMap`s that the code fills incrementally are embedded as
  association lists in insertion order (`assocGet` / `assocInsert` /
  `assocUpdate` below); `sort_unstable_by_key` is embedded as an insertion
  sort by the same key (the embedding is order-faithful up to ties, which
  `sort_unstable` itself does not determine).
* Rust `String` operations (`replace`, `to_lowercase`, `starts_with`,
  `ends_with`, `contains`) are embedded as structurally recursive functions
  over `String.data`, so that everything evaluates by kernel reduction.
-/

/-- Result of running a piece of Rust code that may `panic!`: either a value
or a panic carrying the panic message. -/
inductive RustResult (α : Type) where
  | ok (val : α)
  | panicked (msg : String)
deriving DecidableEq

/-- Rust `str::to_lowercase`, embedded on the character list (the values the
describers lowercase are ASCII, where `Char.toLower` agrees with Rust). -/
def lowerStr (s : String) : String :=
  ⟨s.data.map Char.toLower⟩

/-- One step of `replaceAll`: replaces non-overlapping occurrences of `pat`
left to right, with fuel (the fuel is the length of the list, which bounds
the number of steps since `pat` is non-empty at every call site). -/
def replaceAllAux (pat rep : List Char) : Nat → List Char → List Char
  | 0, l => l
  | _ + 1, [] => []
  | fuel + 1, c :: cs =>
    if pat.isPrefixOf (c :: cs) then
      rep ++ replaceAllAux pat rep fuel (List.drop pat.length (c :: cs))
    else
      c :: replaceAllAux pat rep fuel cs

/-- Rust `str::replace(pat, rep)`: replace every non-overlapping occurrence,
scanning left to right. -/
def replaceAll (s pat rep : String) : String :=
  ⟨replaceAllAux pat.data rep.data s.data.length s.data⟩

/-- Rust `str::starts_with`. -/
def startsWithStr (s pat : String) : Bool :=
  pat.data.isPrefixOf s.data

/-- Rust `str::ends_with`. -/
def endsWithStr (s pat : String) : Bool :=
  pat.data.isSuffixOf s.data

/-- Helper for `containsStr`: does `pat` occur in the list? -/
def containsAux (pat : List Char) : List Char → Bool
  | [] => pat.isEmpty
  | c :: cs => pat.isPrefixOf (c :: cs) || containsAux pat cs

/-- Rust `str::contains` for a string pattern. -/
def containsStr (s pat : String) : Bool :=
  containsAux pat.data s.data

/-- Lookup in an association list (embeds `HashMap::get`). -/
def assocGet {β : Type} (m : List (Int × β)) (k : Int) : Option β :=
  match m with
  | [] => none
  | (k', v) :: rest => if k' = k then some v else assocGet rest k

/-- Insert into an association list, replacing the value if the key is
present and appending at the end otherwise (embeds `HashMap::insert`). -/
def assocInsert {β : Type} (m : List (Int × β)) (k : Int) (v : β) : List (Int × β) :=
  match m with
  | [] => [(k, v)]
  | (k', v') :: rest =>
    if k' = k then (k, v) :: rest else (k', v') :: assocInsert rest k v

/-- Apply a function to the value stored at a key, leaving the list unchanged
if the key is absent (embeds mutation through `HashMap::get_mut`). -/
def assocUpdate {β : Type} (m : List (Int × β)) (k : Int) (f : β → β) : List (Int × β) :=
  match m with
  | [] => []
  | (k', v) :: rest =>
    if k' = k then (k', f v) :: rest else (k', v) :: assocUpdate rest k f

/-- Lexicographic strict comparison of lists by a strict boolean comparator
on elements; mirrors the `Ord` instance Rust derives for `Vec<T>` (and for
`String` over its bytes, which for UTF-8 agrees with code-point order). -/
def listLtB {α : Type} (ltB : α → α → Bool) : List α → List α → Bool
  | [], [] => false
  | [], _ :: _ => true
  | _ :: _, [] => false
  | a :: as, b :: bs =>
    if ltB a b then true else if ltB b a then false else listLtB ltB as bs

/-- Strict `<` on `Char` as a boolean (code-point order). -/
def charLtB (a b : Char) : Bool := decide (a < b)

/-- Rust `String` strict `Ord` comparison. -/
def strLtB (a b : String) : Bool := listLtB charLtB a.data b.data

/-- Rust `String` non-strict comparison (`a <= b` of the total order). -/
def strLeB (a b : String) : Bool := !(strLtB b a)

/-- Rust `Vec<String>` strict `Ord` comparison. -/
def strListLtB (a b : List String) : Bool := listLtB strLtB a b

/-- Rust `Vec<String>` non-strict comparison. -/
def strListLeB (a b : List String) : Bool := !(strListLtB b a)

/-- `i64` non-strict comparison as a boolean. -/
def intLeB (a b : Int) : Bool := decide (a ≤ b)

/-- Insert `a` into `l` in front of the first element `b` with `le a b`
(helper of `insertionSortBy`). -/
def insertBy {α : Type} (le : α → α → Bool) (a : α) : List α → List α
  | [] => [a]
  | b :: bs => if le a b then a :: b :: bs else b :: insertBy le a bs

/-- Insertion sort by a boolean comparator; embeds `sort_unstable_by_key`
(which only promises a sorted permutation). -/
def insertionSortBy {α : Type} (le : α → α → Bool) : List α → List α
  | [] => []
  | a :: as => insertBy le a (insertionSortBy le as)

/-! ## The `SqlSchema` data model

Modelled from the spec: the `SqlSchema` value types live in the crate root of
`sql-schema-describer`, which is not among the provided source files; their
shape follows spec §3 (DATA MODEL) and the constructor sites in
`postgres.rs` / `sqlite.rs`. -/

/-- Modelled from the spec: the coarse abstract column-type family used by
the differ (spec §3, `Column.tpe.family`). -/
inductive ColumnTypeFamily where
  | Int
  | Float
  | Boolean
  | String
  | DateTime
  | Binary
  | Json
  | Uuid
  | Geometric
  | TextSearch
  | LogSequenceNumber
  | TransactionId
  | Unknown
deriving DecidableEq

/-- Modelled from the spec: `ColumnType \x7b raw, family \x7d` (spec §3). -/
structure ColumnType where
  raw : String
  family : ColumnTypeFamily
deriving DecidableEq

/-- Modelled from the spec: column arity (spec §3). -/
inductive ColumnArity where
  | Required
  | Nullable
  | List
deriving DecidableEq

/-- Modelled from the spec: a column of a described table (spec §3). -/
structure Column where
  name : String
  tpe : ColumnType
  arity : ColumnArity
  default : Option String
  auto_increment : Bool
deriving DecidableEq

/-- Modelled from the spec: a sequence object (spec §3). -/
structure Sequence where
  name : String
  initial_value : Nat
  allocation_size : Nat
deriving DecidableEq

/-- Modelled from the spec: a primary key, an ordered column-name list with
an optional backing sequence (spec §3). -/
structure PrimaryKey where
  columns : List String
  sequence : Option Sequence
deriving DecidableEq

/-- Modelled from the spec: referential action on delete (spec §3). -/
inductive ForeignKeyAction where
  | NoAction
  | Restrict
  | Cascade
  | SetNull
  | SetDefault
deriving DecidableEq

/-- Modelled from the spec: a foreign key (spec §3). -/
structure ForeignKey where
  constraint_name : Option String
  columns : List String
  referenced_table : String
  referenced_columns : List String
  on_delete_action : ForeignKeyAction
deriving DecidableEq

/-- Modelled from the spec: index type (spec §3). -/
inductive IndexType where
  | Unique
  | Normal
deriving DecidableEq

/-- Modelled from the spec: a non-primary-key index (spec §3). -/
structure Index where
  name : String
  columns : List String
  tpe : IndexType
deriving DecidableEq

/-- Modelled from the spec: a native enum type (spec §3); the value set is
embedded as a list. -/
structure Enum where
  name : String
  values : List String
deriving DecidableEq

/-- Modelled from the spec: a described table (spec §3). -/
structure Table where
  name : String
  columns : List Column
  indices : List Index
  primary_key : Option PrimaryKey
  foreign_keys : List ForeignKey
deriving DecidableEq

/-- Modelled from the spec: the dialect-neutral schema value (spec §3). -/
structure SqlSchema where
  enums : List Enum
  sequences : List Sequence
  tables : List Table
deriving DecidableEq

namespace Postgres

/-- `postgres.rs` `get_column_type` (lines 485–534): the fixed
`udt_name → ColumnTypeFamily` mapping; any other udt panics with
`type '<udt>' is not supported here yet.`. -/
def get_column_type (udt : String) : RustResult ColumnType :=
  match udt with
  | "int2" => .ok ⟨udt, .Int⟩
  | "int4" => .ok ⟨udt, .Int⟩
  | "int8" => .ok ⟨udt, .Int⟩
  | "float4" => .ok ⟨udt, .Float⟩
  | "float8" => .ok ⟨udt, .Float⟩
  | "bool" => .ok ⟨udt, .Boolean⟩
  | "text" => .ok ⟨udt, .String⟩
  | "varchar" => .ok ⟨udt, .String⟩
  | "date" => .ok ⟨udt, .DateTime⟩
  | "bytea" => .ok ⟨udt, .Binary⟩
  | "json" => .ok ⟨udt, .Json⟩
  | "jsonb" => .ok ⟨udt, .Json⟩
  | "uuid" => .ok ⟨udt, .Uuid⟩
  | "bit" => .ok ⟨udt, .Binary⟩
  | "varbit" => .ok ⟨udt, .Binary⟩
  | "box" => .ok ⟨udt, .Geometric⟩
  | "circle" => .ok ⟨udt, .Geometric⟩
  | "line" => .ok ⟨udt, .Geometric⟩
  | "lseg" => .ok ⟨udt, .Geometric⟩
  | "path" => .ok ⟨udt, .Geometric⟩
  | "polygon" => .ok ⟨udt, .Geometric⟩
  | "bpchar" => .ok ⟨udt, .String⟩
  | "interval" => .ok ⟨udt, .DateTime⟩
  | "numeric" => .ok ⟨udt, .Float⟩
  | "pg_lsn" => .ok ⟨udt, .LogSequenceNumber⟩
  | "time" => .ok ⟨udt, .DateTime⟩
  | "timetz" => .ok ⟨udt, .DateTime⟩
  | "timestamp" => .ok ⟨udt, .DateTime⟩
  | "timestamptz" => .ok ⟨udt, .DateTime⟩
  | "tsquery" => .ok ⟨udt, .TextSearch⟩
  | "tsvector" => .ok ⟨udt, .TextSearch⟩
  | "txid_snapshot" => .ok ⟨udt, .TransactionId⟩
  | "_bytea" => .ok ⟨udt, .Binary⟩
  | "_bool" => .ok ⟨udt, .Boolean⟩
  | "_date" => .ok ⟨udt, .DateTime⟩
  | "_float8" => .ok ⟨udt, .Float⟩
  | "_float4" => .ok ⟨udt, .Float⟩
  | "_int4" => .ok ⟨udt, .Int⟩
  | "_text" => .ok ⟨udt, .String⟩
  | "_varchar" => .ok ⟨udt, .String⟩
  | _ => .panicked ("type \x27" ++ udt ++ "\x27 is not supported here yet.")

end Postgres

/-- Run a fallible (panicking) computation over a list, short-circuiting on
the first panic; embeds the `collect()` of an iterator whose closure can
panic. -/
def listMapM {α β : Type} (f : α → RustResult β) : List α → RustResult (List β)
  | [] => .ok []
  | a :: as =>
    match f a with
    | .panicked m => .panicked m
    | .ok b =>
      match listMapM f as with
      | .panicked m => .panicked m
      | .ok bs => .ok (b :: bs)

/-- Fold a fallible (panicking) step over a list, short-circuiting on the
first panic; embeds a `for` loop whose body can panic. -/
def listFoldlM {σ α : Type} (f : σ → α → RustResult σ) : σ → List α → RustResult σ
  | s, [] => .ok s
  | s, a :: as =>
    match f s a with
    | .panicked m => .panicked m
    | .ok s' => listFoldlM f s' as

namespace Postgres

/-- A result row of the `information_schema.columns` query of
`postgres.rs` `get_columns` (lines 125–128), with the columns the code
reads; `column_default` is `none` when the database value is NULL. -/
structure ColumnRow where
  column_name : String
  udt_name : String
  column_default : Option String
  is_nullable : String
  is_identity : String
deriving DecidableEq

/-- `postgres.rs` lines 142–151: lowercase `is_identity` and map
`no`/`yes`, panicking on anything else. -/
def parse_is_identity (s : String) : RustResult Bool :=
  if lowerStr s = "no" then .ok false
  else if lowerStr s = "yes" then .ok true
  else .panicked ("unrecognized is_identity variant \x27" ++ lowerStr s ++ "\x27")

/-- `postgres.rs` lines 152–161: lowercase `is_nullable` and map `no`/`yes`
to whether the column is required, panicking on anything else. -/
def parse_is_nullable (s : String) : RustResult Bool :=
  if lowerStr s = "no" then .ok true
  else if lowerStr s = "yes" then .ok false
  else .panicked ("unrecognized is_nullable variant \x27" ++ lowerStr s ++ "\x27")

/-- `postgres.rs` lines 171–175: the default value as reported, with every
single quote and every `::text` occurrence removed. -/
def canonicalize_default (raw : String) : String :=
  replaceAll (replaceAll raw "\x27" "") "::text" ""

/-- The sequence-default pattern of `postgres.rs` line 179:
`nextval("<schema>"."<table>_<col>_seq"::regclass)`. -/
def nextval_pattern (schema table col : String) : String :=
  "nextval(\"" ++ schema ++ "\".\"" ++ table ++ "_" ++ col ++ "_seq\"::regclass)"

/-- The body of the row closure of `postgres.rs` `get_columns`
(lines 135–190): build one `Column` from one row, panicking exactly where
the source does. -/
def process_column (schema table : String) (row : ColumnRow) : RustResult Column :=
  match parse_is_identity row.is_identity with
  | .panicked m => .panicked m
  | .ok is_identity =>
    match parse_is_nullable row.is_nullable with
    | .panicked m => .panicked m
    | .ok is_required =>
      match get_column_type row.udt_name with
      | .panicked m => .panicked m
      | .ok tpe =>
        let arity :=
          if startsWithStr tpe.raw "_" then ColumnArity.List
          else if is_required then ColumnArity.Required
          else ColumnArity.Nullable
        let default := row.column_default.map canonicalize_default
        let is_auto_increment :=
          is_identity ||
            match default with
            | some v => v == nextval_pattern schema table row.column_name
            | none => false
        .ok ⟨row.column_name, tpe, arity, default, is_auto_increment⟩

/-- `postgres.rs` `get_columns` (lines 124–195) applied to the rows returned
by the columns query. -/
def get_columns (schema table : String) (rows : List ColumnRow) : RustResult (List Column) :=
  listMapM (process_column schema table) rows

/-- The parameter list bound to the columns query (`postgres.rs` line 131):
`$1 = table_schema`, `$2 = table_name`. -/
def get_columns_params (schema table : String) : List String := [schema, table]

/-- The parameter list bound to the indices query (`postgres.rs` line 342):
`$1 = nspname`, `$2 = relname`. -/
def get_indices_params (schema table : String) : List String := [schema, table]

/-- The parameter list bound to the foreign-keys query (`postgres.rs`
line 237), where the SQL uses `$1 = cl.relname` and `$2 = ns.nspname`. -/
def get_foreign_keys_params (schema table : String) : List String := [table, schema]

/-- `postgres.rs` lines 263–270: map the `confdeltype` character to a
referential action, panicking on an unknown character. -/
def parse_confdeltype (c : Char) : RustResult ForeignKeyAction :=
  if c = 'a' then .ok .NoAction
  else if c = 'r' then .ok .Restrict
  else if c = 'c' then .ok .Cascade
  else if c = 'n' then .ok .SetNull
  else if c = 'd' then .ok .SetDefault
  else .panicked ("unrecognized foreign key action \x27" ++ String.mk [c] ++ "\x27")

end Postgres

namespace Sqlite

/-- `sqlite.rs` `get_column_type` (lines 336–367): lowercases the raw type,
maps the known SQLite spellings, and falls back to
`ColumnTypeFamily.Unknown` for everything else (the panic is commented out
in the source). `raw` keeps the original spelling. -/
def get_column_type (tpe : String) : ColumnType :=
  let tpe_lower := lowerStr tpe
  let family :=
    match tpe_lower with
    | "integer" => ColumnTypeFamily.Int
    | "real" => ColumnTypeFamily.Float
    | "float" => ColumnTypeFamily.Float
    | "serial" => ColumnTypeFamily.Int
    | "boolean" => ColumnTypeFamily.Boolean
    | "text" => ColumnTypeFamily.String
    | s =>
      if containsStr s "char" then ColumnTypeFamily.String
      else if containsStr s "numeric" then ColumnTypeFamily.Float
      else match s with
        | "date" => ColumnTypeFamily.DateTime
        | "datetime" => ColumnTypeFamily.DateTime
        | "binary" => ColumnTypeFamily.Binary
        | "double" => ColumnTypeFamily.Float
        | "binary[]" => ColumnTypeFamily.Binary
        | "boolean[]" => ColumnTypeFamily.Boolean
        | "date[]" => ColumnTypeFamily.DateTime
        | "datetime[]" => ColumnTypeFamily.DateTime
        | "double[]" => ColumnTypeFamily.Float
        | "float[]" => ColumnTypeFamily.Float
        | "integer[]" => ColumnTypeFamily.Int
        | "text[]" => ColumnTypeFamily.String
        | _ => ColumnTypeFamily.Unknown
  ⟨tpe, family⟩

/-- The type spellings that `sqlite.rs` `get_column_type` recognizes by an
exact (lowercased) match. -/
def knownSqliteTypes : List String :=
  ["integer", "real", "float", "serial", "boolean", "text",
   "date", "datetime", "binary", "double",
   "binary[]", "boolean[]", "date[]", "datetime[]", "double[]", "float[]",
   "integer[]", "text[]"]

/-- A result row of `PRAGMA table_info` as read by `sqlite.rs` `get_columns`
(lines 110–157); `dflt_value` is `none` when the database value is NULL
(`type` is the raw column type string). -/
structure TableInfoRow where
  name : String
  type : String
  notnull : Bool
  dflt_value : Option String
  pk : Int
deriving DecidableEq

/-- The body of the row closure of `sqlite.rs` `get_columns`
(lines 117–156): build one `Column` from one `PRAGMA table_info` row. The
reported default is the raw text with every double quote removed;
`auto_increment` starts out `false` for every column. -/
def row_column (row : TableInfoRow) : Column :=
  let default_value := row.dflt_value.map (fun v => replaceAll v "\"" "")
  let tpe := get_column_type row.type
  let arity :=
    if endsWithStr tpe.raw "[]" then ColumnArity.List
    else if row.notnull then ColumnArity.Required
    else ColumnArity.Nullable
  ⟨row.name, tpe, arity, default_value, false⟩

/-- `sqlite.rs` lines 114 and 142–144: the `pk → column name` map collected
while iterating over the rows (`pk_cols`). -/
def pk_map (rows : List TableInfoRow) : List (Int × String) :=
  rows.foldl (fun m row => if row.pk > 0 then assocInsert m row.pk row.name else m) []

/-- `sqlite.rs` lines 115–158: the column list, sorted by column name
(`cols.sort_unstable_by_key`). -/
def sorted_columns (rows : List TableInfoRow) : List Column :=
  insertionSortBy (fun a b => strLeB a.name b.name) (rows.map row_column)

/-- `sqlite.rs` lines 166–171: the primary-key column names, ordered by
their `pk` ordinal. -/
def pk_columns (pkc : List (Int × String)) : List String :=
  (insertionSortBy intLeB (pkc.map Prod.fst)).map (fun i => (assocGet pkc i).getD "")

/-- `sqlite.rs` lines 173–185: if the primary key is a single column and its
raw type is `integer` (case-insensitively), flip that column's
`auto_increment` to `true`. -/
def mark_autoincrement (pkc : List (Int × String)) (columns : List String)
    (cols : List Column) : List Column :=
  if pkc.length == 1 then
    match columns.head? with
    | some pk_col =>
      cols.map (fun c =>
        if c.name == pk_col && lowerStr c.tpe.raw == "integer" then
          ⟨c.name, c.tpe, c.arity, c.default, true⟩
        else c)
    | none => cols
  else cols

/-- `sqlite.rs` `get_columns` (lines 110–196): build the column list, sorted
by column name, and infer the primary key from the `pk` ordinals; a sole
`integer` primary-key column is marked auto-incrementing (the rowid
alias). -/
def get_columns (rows : List TableInfoRow) : List Column × Option PrimaryKey :=
  if (pk_map rows).isEmpty then (sorted_columns rows, none)
  else
    (mark_autoincrement (pk_map rows) (pk_columns (pk_map rows)) (sorted_columns rows),
     some ⟨pk_columns (pk_map rows), none⟩)

/-- A result row of `PRAGMA foreign_key_list` as read by `sqlite.rs`
`get_foreign_keys` (lines 214–220). -/
structure FkRow where
  id : Int
  seq : Int
  table : String
  from_ : String
  to_ : String
  on_delete : String
deriving DecidableEq

/-- The intermediate per-constraint representation of `sqlite.rs`
`get_foreign_keys` (lines 199–204), with the two `seq → name` hash maps
embedded as association lists. -/
structure IntermediateForeignKey where
  columns : List (Int × String)
  referenced_table : String
  referenced_columns : List (Int × String)
  on_delete_action : ForeignKeyAction
deriving DecidableEq

/-- `sqlite.rs` lines 231–244: parse the `on_delete` action string
case-insensitively, panicking on an unrecognized string. -/
def parse_on_delete (s : String) : RustResult ForeignKeyAction :=
  if lowerStr s = "no action" then .ok .NoAction
  else if lowerStr s = "restrict" then .ok .Restrict
  else if lowerStr s = "set null" then .ok .SetNull
  else if lowerStr s = "set default" then .ok .SetDefault
  else if lowerStr s = "cascade" then .ok .Cascade
  else .panicked ("Unrecognized on delete action \x27" ++ lowerStr s ++ "\x27")

/-- The body of the row loop of `sqlite.rs` `get_foreign_keys`
(lines 214–254): merge one `PRAGMA foreign_key_list` row into the
intermediate map, keyed by the constraint `id`; the action (and referenced
table) are taken from the first row of each constraint. -/
def fk_step (m : List (Int × IntermediateForeignKey)) (row : FkRow) :
    RustResult (List (Int × IntermediateForeignKey)) :=
  match assocGet m row.id with
  | some _ =>
    .ok (assocUpdate m row.id (fun fk =>
      ⟨assocInsert fk.columns row.seq row.from_, fk.referenced_table,
       assocInsert fk.referenced_columns row.seq row.to_, fk.on_delete_action⟩))
  | none =>
    match parse_on_delete row.on_delete with
    | .panicked msg => .panicked msg
    | .ok act =>
      .ok (m ++ [(row.id, ⟨[(row.seq, row.from_)], row.table, [(row.seq, row.to_)], act⟩)])

/-- `sqlite.rs` lines 256–289: turn one intermediate foreign key into a
`ForeignKey`, ordering both column lists by ascending `seq` and leaving the
constraint name absent. -/
def materialize_fk (ifk : IntermediateForeignKey) : ForeignKey :=
  let column_keys := insertionSortBy intLeB (ifk.columns.map Prod.fst)
  let columns := column_keys.map (fun i => (assocGet ifk.columns i).getD "")
  let referenced_column_keys := insertionSortBy intLeB (ifk.referenced_columns.map Prod.fst)
  let referenced_columns :=
    referenced_column_keys.map (fun i => (assocGet ifk.referenced_columns i).getD "")
  ⟨none, columns, ifk.referenced_table, referenced_columns, ifk.on_delete_action⟩

/-- `sqlite.rs` `get_foreign_keys` (lines 198–294) applied to the rows of
`PRAGMA foreign_key_list`: group rows by `id`, materialize each group, and
sort the result by the column list. -/
def get_foreign_keys (rows : List FkRow) : RustResult (List ForeignKey) :=
  match listFoldlM fk_step [] rows with
  | .panicked m => .panicked m
  | .ok m =>
    .ok (insertionSortBy (fun a b => strListLeB a.columns b.columns)
      (m.map (fun p => materialize_fk p.2)))

/-- The rows of `PRAGMA foreign_key_list` that belong to the constraint
with the given `id`, in result order (used to state what grouping by `id`
must produce). -/
def fk_rows_for (i : Int) (rows : List FkRow) : List FkRow :=
  rows.filter (fun r => r.id == i)

/-- A constraint's rows ordered by ascending `seq` (used to state the
ordering of the merged column lists). -/
def fk_rows_by_seq (i : Int) (rows : List FkRow) : List FkRow :=
  insertionSortBy (fun a b => intLeB a.seq b.seq) (fk_rows_for i rows)

/-- The loop invariant of the row loop of `sqlite.rs` `get_foreign_keys`:
after the rows `done` have been merged into the intermediate map `m`, the
keys of `m` are distinct, every processed row's `id` has an entry, and each
entry holds exactly its constraint's `(seq, name)` pairs in row order, with
the referenced table and parsed action of the constraint's first row. -/
def FkInv (done : List FkRow) (m : List (Int × IntermediateForeignKey)) : Prop :=
  (m.map Prod.fst).Nodup ∧
  (∀ r ∈ done, r.id ∈ m.map Prod.fst) ∧
  (∀ p ∈ m,
    p.2.columns = (fk_rows_for p.1 done).map (fun r => (r.seq, r.from_)) ∧
    p.2.referenced_columns = (fk_rows_for p.1 done).map (fun r => (r.seq, r.to_)) ∧
    ∃ r0 rest, fk_rows_for p.1 done = r0 :: rest ∧
      p.2.referenced_table = r0.table ∧
      parse_on_delete r0.on_delete = .ok p.2.on_delete_action)

/-- A result row of `PRAGMA index_list` as read by `sqlite.rs` `get_indices`
(lines 301–315). -/
structure IndexListRow where
  name : String
  unique : Bool
  origin : String
deriving DecidableEq

/-- A result row of `PRAGMA index_info` as read by `sqlite.rs` `get_indices`
(lines 321–328). -/
structure IndexInfoRow where
  seqno : Int
  name : String
deriving DecidableEq

/-- `sqlite.rs` lines 324–327: grow the column vector to cover position
`pos`, then write the name at that position. -/
def set_index_column (cols : List String) (pos : Nat) (v : String) : List String :=
  let cols :=
    if cols.length ≤ pos then cols ++ List.replicate (pos + 1 - cols.length) "" else cols
  cols.set pos v

/-- The body of the index closure of `sqlite.rs` `get_indices`
(lines 305–331): build one `Index`, placing each `PRAGMA index_info` row's
column at position `seqno` (the non-negative `i64` is cast to an index). -/
def index_from_rows (row : IndexListRow) (info : List IndexInfoRow) : Index :=
  let tpe := if row.unique then IndexType.Unique else IndexType.Normal
  let columns := info.foldl (fun cols r => set_index_column cols r.seqno.toNat r.name) []
  ⟨row.name, columns, tpe⟩

/-- The SQLite database as seen through the connection: the table names of
`sqlite_master` and the result rows of each `PRAGMA` the describer issues
(`table_info`/`foreign_key_list`/`index_list` per table, `index_info` per
index name). -/
structure Db where
  tables : List String
  table_info : String → List TableInfoRow
  foreign_key_list : String → List FkRow
  index_list : String → List IndexListRow
  index_info : String → List IndexInfoRow

/-- `sqlite.rs` `get_indices` (lines 296–333): indices from
`PRAGMA index_list`, excluding rows with `origin = 'pk'`. -/
def get_indices (db : Db) (table : String) : List Index :=
  ((db.index_list table).filter (fun row => row.origin != "pk")).map
    (fun row => index_from_rows row (db.index_info row.name))

/-- `sqlite.rs` `get_table` (lines 96–108). -/
def get_table (db : Db) (name : String) : RustResult Table :=
  let (cols, pk) := get_columns (db.table_info name)
  match get_foreign_keys (db.foreign_key_list name) with
  | .panicked m => .panicked m
  | .ok fks => .ok ⟨name, cols, get_indices db name, pk, fks⟩

/-- `sqlite.rs` `get_table_names` (lines 71–82): the table names of
`sqlite_master`, with `sqlite_sequence` filtered out. -/
def get_table_names (db : Db) : List String :=
  db.tables.filter (fun n => n != "sqlite_sequence")

/-- `sqlite.rs` lines 377–383: the SQLite system tables. -/
def SQLITE_SYSTEM_TABLES : List String :=
  ["sqlite_sequence", "sqlite_stat1", "sqlite_stat2", "sqlite_stat3", "sqlite_stat4"]

/-- `sqlite.rs` `is_system_table` (lines 369–374). -/
def is_system_table (table_name : String) : Bool :=
  SQLITE_SYSTEM_TABLES.any (fun system_table => table_name == system_table)

/-- `sqlite.rs` `describe` (lines 29–44): all non-system tables, no enums,
no sequences. -/
def describe (db : Db) : RustResult SqlSchema :=
  match listMapM (get_table db) ((get_table_names db).filter (fun t => !is_system_table t)) with
  | .panicked m => .panicked m
  | .ok tables => .ok ⟨[], [], tables⟩

end Sqlite

/-- Modelled from the spec: the canonicalization the spec describes for
default values (spec §3 "strings stripped of surrounding quotes and dialect
casts such as `::text`" and §9 `canonicalize_default(dialect, raw)`), as
claim C7 reads it: a trailing cast is removed and only the SURROUNDING
quotes are stripped, quote characters interior to the value being kept. -/
def spec_canonicalize_default (quote : Char) (cast : String) (raw : String) : String :=
  let s : String :=
    if endsWithStr raw cast then ⟨raw.data.take (raw.data.length - cast.data.length)⟩ else raw
  if s.data.length ≥ 2 && s.data.head? == some quote && s.data.getLast? == some quote then
    ⟨(s.data.drop 1).take (s.data.length - 2)⟩
  else s


/-! ## Helper lemmas -/

theorem charLtB_iff (a b : Char) : charLtB a b = true ↔ a < b := by
  simp [charLtB]

theorem listLtB_iff_lex {α : Type} [LinearOrder α] (ltB : α → α → Bool)
    (h : ∀ x y, ltB x y = true ↔ x < y) :
    ∀ l₁ l₂ : List α, listLtB ltB l₁ l₂ = true ↔ List.Lex (· < ·) l₁ l₂ := by
  intro l₁
  induction l₁ with
  | nil =>
    intro l₂
    cases l₂ with
    | nil =>
      simp only [listLtB, Bool.false_eq_true, false_iff]
      exact fun hl => nomatch hl
    | cons b bs =>
      simp only [listLtB, true_iff]
      exact List.Lex.nil
  | cons a as ih =>
    intro l₂
    cases l₂ with
    | nil =>
      simp only [listLtB, Bool.false_eq_true, false_iff]
      exact fun hl => nomatch hl
    | cons b bs =>
      simp only [listLtB]
      rcases hab : ltB a b with _ | _
      · rcases hba : ltB b a with _ | _
        · have heq : a = b := by
            have h1 : ¬a < b := fun hl => by simp [(h a b).mpr hl] at hab
            have h2 : ¬b < a := fun hl => by simp [(h b a).mpr hl] at hba
            exact le_antisymm (not_lt.mp h2) (not_lt.mp h1)
          subst heq
          simp only [Bool.false_eq_true, if_false, ih bs]
          constructor
          · exact fun hl => List.Lex.cons hl
          · intro hl
            cases hl with
            | rel hr => exact absurd hr (lt_irrefl a)
            | cons hl' => exact hl'
        · simp only [Bool.false_eq_true, if_false, if_true]
          simp only [false_iff]
          intro hl
          cases hl with
          | rel hr => exact absurd ((h a b).mpr hr) (by simp [hab])
          | cons hl' => exact absurd ((h a a).mp hba) (lt_irrefl a)
      · simp only [if_true]
        simp only [true_iff]
        exact List.Lex.rel ((h a b).mp hab)

theorem strLtB_iff (a b : String) : strLtB a b = true ↔ a < b := by
  rw [String.lt_iff_toList_lt]
  exact listLtB_iff_lex charLtB charLtB_iff a.data b.data

theorem strLeB_iff (a b : String) : strLeB a b = true ↔ a ≤ b := by
  unfold strLeB
  rcases h : strLtB b a with _ | _
  · have hnl : ¬b < a := fun hl => absurd ((strLtB_iff b a).mpr hl) (by simp [h])
    simp [not_lt.mp hnl]
  · have hl : b < a := (strLtB_iff b a).mp h
    simp [not_le.mpr hl]

theorem strListLtB_iff (a b : List String) : strListLtB a b = true ↔ a < b :=
  listLtB_iff_lex strLtB strLtB_iff a b

theorem strListLeB_iff (a b : List String) : strListLeB a b = true ↔ a ≤ b := by
  unfold strListLeB
  rcases h : strListLtB b a with _ | _
  · have hnl : ¬b < a := fun hl => absurd ((strListLtB_iff b a).mpr hl) (by simp [h])
    simp [not_lt.mp hnl]
  · have hl : b < a := (strListLtB_iff b a).mp h
    simp [not_le.mpr hl]

theorem intLeB_iff (a b : Int) : intLeB a b = true ↔ a ≤ b := by
  simp [intLeB]

theorem mem_insertBy {α : Type} (le : α → α → Bool) (a b : α) :
    ∀ l : List α, b ∈ insertBy le a l ↔ b = a ∨ b ∈ l := by
  intro l
  induction l with
  | nil => simp [insertBy]
  | cons c cs ih =>
    rcases h : le a c with _ | _
    · simp only [insertBy, h, Bool.false_eq_true, if_false, List.mem_cons, ih]
      tauto
    · simp [insertBy, h, List.mem_cons]

theorem mem_insertionSortBy {α : Type} (le : α → α → Bool) (b : α) :
    ∀ l : List α, b ∈ insertionSortBy le l ↔ b ∈ l := by
  intro l
  induction l with
  | nil => simp [insertionSortBy]
  | cons c cs ih =>
    simp [insertionSortBy, mem_insertBy, ih]

theorem length_insertBy {α : Type} (le : α → α → Bool) (a : α) :
    ∀ l : List α, (insertBy le a l).length = l.length + 1 := by
  intro l
  induction l with
  | nil => rfl
  | cons c cs ih =>
    rcases h : le a c with _ | _ <;> simp [insertBy, h, ih]

theorem length_insertionSortBy {α : Type} (le : α → α → Bool) :
    ∀ l : List α, (insertionSortBy le l).length = l.length := by
  intro l
  induction l with
  | nil => rfl
  | cons c cs ih => simp [insertionSortBy, length_insertBy, ih]

theorem map_insertBy {α β : Type} (f : α → β) (le : α → α → Bool) (le' : β → β → Bool)
    (hle : ∀ x y, le' (f x) (f y) = le x y) (a : α) :
    ∀ l : List α, (insertBy le a l).map f = insertBy le' (f a) (l.map f) := by
  intro l
  induction l with
  | nil => rfl
  | cons c cs ih =>
    rcases h : le a c with _ | _ <;>
      simp [insertBy, h, hle, ih]

theorem map_insertionSortBy {α β : Type} (f : α → β) (le : α → α → Bool) (le' : β → β → Bool)
    (hle : ∀ x y, le' (f x) (f y) = le x y) :
    ∀ l : List α, (insertionSortBy le l).map f = insertionSortBy le' (l.map f) := by
  intro l
  induction l with
  | nil => rfl
  | cons c cs ih =>
    simp [insertionSortBy, map_insertBy f le le' hle, ih]

theorem pairwise_insertBy {α : Type} (le : α → α → Bool)
    (total : ∀ x y, le x y = true ∨ le y x = true)
    (htrans : ∀ x y z, le x y = true → le y z = true → le x z = true) (a : α) :
    ∀ l : List α, l.Pairwise (fun x y => le x y = true) →
      (insertBy le a l).Pairwise (fun x y => le x y = true) := by
  intro l
  induction l with
  | nil =>
    intro _
    simp [insertBy]
  | cons c cs ih =>
    intro hp
    rw [List.pairwise_cons] at hp
    obtain ⟨hc, hcs⟩ := hp
    rcases h : le a c with _ | _
    · simp only [insertBy, h, Bool.false_eq_true, if_false]
      rw [List.pairwise_cons]
      refine ⟨?_, ih hcs⟩
      intro y hy
      rcases (mem_insertBy le a y cs).mp hy with rfl | hy
      · rcases total y c with h' | h'
        · exact absurd h' (by simp [h])
        · exact h'
      · exact hc y hy
    · simp only [insertBy, h, if_true]
      rw [List.pairwise_cons]
      refine ⟨?_, List.pairwise_cons.mpr ⟨hc, hcs⟩⟩
      intro y hy
      rcases List.mem_cons.mp hy with rfl | hy
      · exact h
      · exact htrans a c y h (hc y hy)

theorem pairwise_insertionSortBy {α : Type} (le : α → α → Bool)
    (total : ∀ x y, le x y = true ∨ le y x = true)
    (htrans : ∀ x y z, le x y = true → le y z = true → le x z = true) :
    ∀ l : List α, (insertionSortBy le l).Pairwise (fun x y => le x y = true) := by
  intro l
  induction l with
  | nil => simp [insertionSortBy]
  | cons c cs ih =>
    exact pairwise_insertBy le total htrans c _ ih

theorem assocGet_eq_none {β : Type} :
    ∀ m : List (Int × β), ∀ k : Int, assocGet m k = none ↔ k ∉ m.map Prod.fst := by
  intro m
  induction m with
  | nil => intro k; simp [assocGet]
  | cons p ps ih =>
    intro k
    rcases p with ⟨k', v⟩
    by_cases h : k' = k
    · subst h
      simp [assocGet]
    · simp [assocGet, h, ih, Ne.symm h]

theorem assocGet_mem {β : Type} :
    ∀ {m : List (Int × β)} {k : Int} {v : β}, assocGet m k = some v → (k, v) ∈ m := by
  intro m
  induction m with
  | nil => intro k v h; simp [assocGet] at h
  | cons p ps ih =>
    intro k v h
    rcases p with ⟨k', v'⟩
    by_cases hk : k' = k
    · subst hk
      simp [assocGet] at h
      simp [h]
    · simp only [assocGet, if_neg hk] at h
      exact List.mem_cons_of_mem _ (ih h)

theorem assocGet_of_mem_nodup {β : Type} :
    ∀ {m : List (Int × β)}, (m.map Prod.fst).Nodup →
      ∀ {k : Int} {v : β}, (k, v) ∈ m → assocGet m k = some v := by
  intro m
  induction m with
  | nil => intro _ k v h; simp at h
  | cons p ps ih =>
    intro hnd k v h
    rcases p with ⟨k', v'⟩
    simp only [List.map_cons, List.nodup_cons] at hnd
    rcases List.mem_cons.mp h with heq | hmem
    · rw [Prod.mk.injEq] at heq
      obtain ⟨h1, h2⟩ := heq
      subst h1; subst h2
      simp [assocGet]
    · have hne : k' ≠ k := by
        intro heq
        subst heq
        exact hnd.1 (List.mem_map.mpr ⟨(k', v), hmem, rfl⟩)
      simp only [assocGet, if_neg hne]
      exact ih hnd.2 hmem

theorem assocInsert_of_not_mem {β : Type} :
    ∀ {m : List (Int × β)} {k : Int}, k ∉ m.map Prod.fst →
      ∀ v : β, assocInsert m k v = m ++ [(k, v)] := by
  intro m
  induction m with
  | nil => intro k _ v; rfl
  | cons p ps ih =>
    intro k hk v
    rcases p with ⟨k', v'⟩
    simp only [List.map_cons, List.mem_cons] at hk
    push_neg at hk
    simp only [assocInsert, if_neg (Ne.symm hk.1)]
    rw [ih hk.2 v]
    rfl

theorem keys_assocUpdate {β : Type} (k : Int) (f : β → β) :
    ∀ m : List (Int × β), (assocUpdate m k f).map Prod.fst = m.map Prod.fst := by
  intro m
  induction m with
  | nil => rfl
  | cons p ps ih =>
    rcases p with ⟨k', v⟩
    by_cases h : k' = k
    · simp [assocUpdate, h]
    · simp [assocUpdate, h, ih]

theorem mem_assocUpdate_nodup {β : Type} {k : Int} {f : β → β} :
    ∀ {m : List (Int × β)}, (m.map Prod.fst).Nodup → ∀ q ∈ assocUpdate m k f,
      (∃ v, (k, v) ∈ m ∧ q = (k, f v)) ∨ (q ∈ m ∧ q.1 ≠ k) := by
  intro m
  induction m with
  | nil => intro _ q hq; simp [assocUpdate] at hq
  | cons p ps ih =>
    intro hnd q hq
    rcases p with ⟨k', v'⟩
    simp only [List.map_cons, List.nodup_cons] at hnd
    by_cases hk : k' = k
    · subst hk
      simp only [assocUpdate, if_pos rfl] at hq
      rcases List.mem_cons.mp hq with rfl | hq
      · exact Or.inl ⟨v', List.mem_cons_self _ _, rfl⟩
      · refine Or.inr ⟨List.mem_cons_of_mem _ hq, ?_⟩
        intro heq
        exact hnd.1 (List.mem_map.mpr ⟨q, hq, heq⟩)
    · simp only [assocUpdate, if_neg hk] at hq
      rcases List.mem_cons.mp hq with rfl | hq
      · exact Or.inr ⟨List.mem_cons_self _ _, hk⟩
      · rcases ih hnd.2 q hq with ⟨v, hv, hqv⟩ | ⟨hql, hqk⟩
        · exact Or.inl ⟨v, List.mem_cons_of_mem _ hv, hqv⟩
        · exact Or.inr ⟨List.mem_cons_of_mem _ hql, hqk⟩

theorem keys_assocInsert_mem {β : Type} {v : β} :
    ∀ {m : List (Int × β)} {k : Int}, k ∈ m.map Prod.fst →
      (assocInsert m k v).map Prod.fst = m.map Prod.fst := by
  intro m
  induction m with
  | nil => intro k h; simp at h
  | cons p ps ih =>
    intro k h
    rcases p with ⟨k', v'⟩
    by_cases hk : k' = k
    · subst hk
      simp [assocInsert]
    · simp only [List.map_cons, List.mem_cons] at h
      rcases h with h | h
      · exact absurd h.symm hk
      · simp [assocInsert, hk, ih h]

theorem nodup_keys_assocInsert {β : Type} (v : β) {m : List (Int × β)} (k : Int)
    (hnd : (m.map Prod.fst).Nodup) : ((assocInsert m k v).map Prod.fst).Nodup := by
  by_cases h : k ∈ m.map Prod.fst
  · rw [keys_assocInsert_mem h]
    exact hnd
  · rw [assocInsert_of_not_mem h v]
    simp only [List.map_append, List.map_cons, List.map_nil]
    simp [List.nodup_append, hnd, h]

theorem listMapM_ok_forall₂ {α β : Type} (f : α → RustResult β) :
    ∀ {l : List α} {l' : List β}, listMapM f l = .ok l' →
      List.Forall₂ (fun a b => f a = .ok b) l l' := by
  intro l
  induction l with
  | nil =>
    intro l' h
    simp only [listMapM] at h
    cases h
    exact List.Forall₂.nil
  | cons a as ih =>
    intro l' h
    simp only [listMapM] at h
    cases hfa : f a with
    | panicked m => rw [hfa] at h; cases h
    | ok b =>
      rw [hfa] at h
      cases hrest : listMapM f as with
      | panicked m => rw [hrest] at h; cases h
      | ok bs =>
        rw [hrest] at h
        cases h
        exact List.Forall₂.cons hfa (ih hrest)

theorem listFoldlM_ok_step {σ α : Type} (f : σ → α → RustResult σ) :
    ∀ {s : σ} {a : α} {as : List α} {s' : σ},
      listFoldlM f s (a :: as) = .ok s' →
        ∃ s₁, f s a = .ok s₁ ∧ listFoldlM f s₁ as = .ok s' := by
  intro s a as s' h
  simp only [listFoldlM] at h
  cases hfa : f s a with
  | panicked m => rw [hfa] at h; cases h
  | ok s₁ =>
    rw [hfa] at h
    exact ⟨s₁, rfl, h⟩

theorem parse_is_identity_ok {s : String} {b : Bool}
    (h : Postgres.parse_is_identity s = .ok b) : b = true ↔ lowerStr s = "yes" := by
  unfold Postgres.parse_is_identity at h
  split at h
  · cases h
    constructor
    · intro hf; cases hf
    · intro hyes
      rename_i hno
      rw [hno] at hyes
      simp at hyes
  · split at h
    · cases h
      rename_i hyes
      simp [hyes]
    · cases h

theorem parse_is_nullable_ok {s : String} {b : Bool}
    (h : Postgres.parse_is_nullable s = .ok b) : b = true ↔ lowerStr s = "no" := by
  unfold Postgres.parse_is_nullable at h
  split at h
  · cases h
    rename_i hno
    simp [hno]
  · split at h
    · cases h
      constructor
      · intro hf; cases hf
      · intro hno
        rename_i hyes
        rw [hyes] at hno
        simp at hno
    · cases h

theorem process_column_ok {schema table : String} {row : Postgres.ColumnRow} {col : Column}
    (h : Postgres.process_column schema table row = .ok col) :
    col.name = row.column_name ∧
    col.default = row.column_default.map Postgres.canonicalize_default ∧
    (col.auto_increment = true ↔
      (lowerStr row.is_identity = "yes" ∨
        col.default = some (Postgres.nextval_pattern schema table row.column_name))) := by
  unfold Postgres.process_column at h
  cases hid : Postgres.parse_is_identity row.is_identity with
  | panicked m => rw [hid] at h; cases h
  | ok is_identity =>
    rw [hid] at h
    cases hnul : Postgres.parse_is_nullable row.is_nullable with
    | panicked m => rw [hnul] at h; cases h
    | ok is_required =>
      rw [hnul] at h
      cases htpe : Postgres.get_column_type row.udt_name with
      | panicked m => rw [htpe] at h; cases h
      | ok tpe =>
        rw [htpe] at h
        cases h
        refine ⟨rfl, rfl, ?_⟩
        dsimp only
        simp only [Bool.or_eq_true]
        rw [← parse_is_identity_ok hid]
        refine or_congr Iff.rfl ?_
        cases hd : Option.map Postgres.canonicalize_default row.column_default with
        | none => simp
        | some v => simp [beq_iff_eq]

/-! ## Claims -/

/-- C1: the claim states that a column whose `udt_name` is outside the fixed
udt-to-family mapping makes describe return
`DescribeError::UnsupportedType` with that type name, neither panicking nor
succeeding. The code instead panics: `get_column_type` hits
`panic!("type '<udt>' is not supported here yet.")`, and the panic
propagates through `get_columns`, so no structured error is ever
produced (evaluated here at the unknown udt `macaddr`). -/
theorem postgres_unknown_udt_panics :
    Postgres.get_column_type "macaddr" =
      .panicked "type \x27macaddr\x27 is not supported here yet." ∧
    Postgres.get_columns "public" "User" [⟨"mac", "macaddr", none, "NO", "NO"⟩] =
      .panicked "type \x27macaddr\x27 is not supported here yet." :=
  ⟨rfl, rfl⟩

/-- C2: the claim states that unrecognized enumerated introspection values
(`is_identity`/`is_nullable` other than yes/no, an unknown `confdeltype`
character, an unrecognized SQLite `on_delete` string) short-circuit with
`DescribeError::UnexpectedValue`. The code instead panics in every one of
these places, as evaluated here on concrete offending values; the SQLite
panic propagates through `get_foreign_keys`. -/
theorem describers_panic_on_unexpected_values :
    Postgres.process_column "public" "User" ⟨"c", "int4", none, "YES", "maybe"⟩ =
      .panicked "unrecognized is_identity variant \x27maybe\x27" ∧
    Postgres.process_column "public" "User" ⟨"c", "int4", none, "perhaps", "NO"⟩ =
      .panicked "unrecognized is_nullable variant \x27perhaps\x27" ∧
    Postgres.parse_confdeltype 'x' =
      .panicked "unrecognized foreign key action \x27x\x27" ∧
    Sqlite.parse_on_delete "explode" =
      .panicked "Unrecognized on delete action \x27explode\x27" ∧
    Sqlite.get_foreign_keys [⟨0, 0, "B", "b", "id", "explode"⟩] =
      .panicked "Unrecognized on delete action \x27explode\x27" :=
  ⟨rfl, rfl, rfl, rfl, rfl⟩

/-- C5: the claim states that every parameterized introspection query binds
`(schema, table)` in that order. The Postgres foreign-key query instead
binds `(table, schema)` (`postgres.rs` line 237: `&[table.into(),
schema.into()]`), while the columns and indices queries do bind
`(schema, table)`; evaluated here at schema `public`, table `User`. -/
theorem postgres_fk_query_binds_table_before_schema :
    Postgres.get_foreign_keys_params "public" "User" = ["User", "public"] ∧
    Postgres.get_foreign_keys_params "public" "User" ≠
      Postgres.get_columns_params "public" "User" ∧
    Postgres.get_columns_params "public" "User" = ["public", "User"] ∧
    Postgres.get_indices_params "public" "User" = ["public", "User"] :=
  ⟨rfl, by decide, rfl, rfl⟩

/-- C7 (counterexample): the claim states that only the SURROUNDING quotes
of a default are stripped and interior quote characters are kept. The code
strips every quote character: on Postgres the raw default `'a''b'` is
reported as `ab` (the spec-described canonicalization would keep `a''b`),
and on SQLite the raw default `x"y` is reported as `xy` (the
spec-described canonicalization would keep `x"y`). -/
theorem canonicalize_default_strips_interior_quotes :
    Postgres.canonicalize_default "\x27a\x27\x27b\x27" = "ab" ∧
    spec_canonicalize_default '\x27' "::text" "\x27a\x27\x27b\x27" = "a\x27\x27b" ∧
    ("ab" : String) ≠ "a\x27\x27b" ∧
    (Sqlite.row_column ⟨"c", "text", false, some "x\"y", 0⟩).default = some "xy" ∧
    spec_canonicalize_default '"' "" "x\"y" = "x\"y" ∧
    (some "xy" : Option String) ≠ some "x\"y" :=
  ⟨rfl, rfl, by decide, rfl, rfl, by decide⟩

/-- C10: the SQLite column-type mapping is total: every type string is
mapped, `raw` preserves the input spelling, and a string outside the known
SQLite type list (and not containing `char` or `numeric`) falls back to the
`Unknown` family, so SQLite describe never fails on a column type. -/
theorem sqlite_column_type_total (s : String) :
    (Sqlite.get_column_type s).raw = s ∧
    ((lowerStr s ∉ Sqlite.knownSqliteTypes ∧ containsStr (lowerStr s) "char" = false ∧
        containsStr (lowerStr s) "numeric" = false) →
      (Sqlite.get_column_type s).family = ColumnTypeFamily.Unknown) := by
  constructor
  · rfl
  · rintro ⟨h1, h2, h3⟩
    unfold Sqlite.get_column_type
    dsimp only
    split <;> simp_all [Sqlite.knownSqliteTypes]

/-- C10 (witness): the unknown type string `mediumtext` is mapped to the
`Unknown` family with its spelling preserved. -/
theorem sqlite_column_type_total_witness :
    (Sqlite.get_column_type "mediumtext").raw = "mediumtext" ∧
    (Sqlite.get_column_type "mediumtext").family = ColumnTypeFamily.Unknown :=
  ⟨(sqlite_column_type_total "mediumtext").1,
   (sqlite_column_type_total "mediumtext").2 (by decide)⟩

theorem forall₂_mem_right {α β : Type} {f2 : α → β → Prop} :
    ∀ {l : List α} {l' : List β}, List.Forall₂ f2 l l' → ∀ b ∈ l', ∃ a ∈ l, f2 a b := by
  intro l l' hf
  induction hf with
  | nil => intro b hb; simp at hb
  | cons h1 h2 ih =>
    intro b hb
    rcases List.mem_cons.mp hb with rfl | hb
    · exact ⟨_, List.mem_cons_self _ _, h1⟩
    · obtain ⟨a, ha, hab⟩ := ih b hb
      exact ⟨a, List.mem_cons_of_mem _ ha, hab⟩

theorem pairwise_of_forall₂ {α β : Type} {R : α → α → Prop} {S : β → β → Prop}
    {f2 : α → β → Prop} (hcompat : ∀ a b a' b', f2 a a' → f2 b b' → R a b → S a' b') :
    ∀ {l : List α} {l' : List β}, List.Forall₂ f2 l l' → l.Pairwise R → l'.Pairwise S := by
  intro l l' hf
  induction hf with
  | nil => intro _; exact List.Pairwise.nil
  | cons h1 h2 ih =>
    intro hp
    rw [List.pairwise_cons] at hp
    rw [List.pairwise_cons]
    refine ⟨?_, ih hp.2⟩
    intro b' hb'
    obtain ⟨b, hb, hbb'⟩ := forall₂_mem_right h2 b' hb'
    exact hcompat _ _ _ _ h1 hbb' (hp.1 b hb)

theorem mark_autoincrement_exists_src {pkc : List (Int × String)} {columns : List String}
    {cols : List Column} {col : Column}
    (h : col ∈ Sqlite.mark_autoincrement pkc columns cols) :
    ∃ c ∈ cols, col.name = c.name ∧ col.default = c.default ∧ col.tpe = c.tpe := by
  unfold Sqlite.mark_autoincrement at h
  split at h
  · split at h
    · rcases List.mem_map.mp h with ⟨c, hc, rfl⟩
      refine ⟨c, hc, ?_⟩
      dsimp only
      split <;> simp
    · exact ⟨col, h, rfl, rfl, rfl⟩
  · exact ⟨col, h, rfl, rfl, rfl⟩

theorem mark_autoincrement_pairwise_name (pkc : List (Int × String)) (columns : List String)
    {cols : List Column} (h : cols.Pairwise (fun a b => a.name ≤ b.name)) :
    (Sqlite.mark_autoincrement pkc columns cols).Pairwise (fun a b => a.name ≤ b.name) := by
  unfold Sqlite.mark_autoincrement
  split
  · split
    · rw [List.pairwise_map]
      refine h.imp ?_
      intro a b hab
      dsimp only
      split <;> split <;> simpa using hab
    · exact h
  · exact h

theorem sorted_columns_pairwise_name (rows : List Sqlite.TableInfoRow) :
    (Sqlite.sorted_columns rows).Pairwise (fun a b => a.name ≤ b.name) := by
  have htot : ∀ x y : Column, strLeB x.name y.name = true ∨ strLeB y.name x.name = true := by
    intro x y
    rcases le_total x.name y.name with h | h
    · exact Or.inl ((strLeB_iff _ _).mpr h)
    · exact Or.inr ((strLeB_iff _ _).mpr h)
  have htr : ∀ x y z : Column, strLeB x.name y.name = true → strLeB y.name z.name = true →
      strLeB x.name z.name = true := by
    intro x y z hxy hyz
    exact (strLeB_iff _ _).mpr (le_trans ((strLeB_iff _ _).mp hxy) ((strLeB_iff _ _).mp hyz))
  have := pairwise_insertionSortBy (fun (a b : Column) => strLeB a.name b.name) htot htr
    (rows.map Sqlite.row_column)
  exact this.imp (fun hab => (strLeB_iff _ _).mp hab)

theorem sqlite_columns_pairwise_name (rows : List Sqlite.TableInfoRow) :
    ((Sqlite.get_columns rows).1).Pairwise (fun a b => a.name ≤ b.name) := by
  unfold Sqlite.get_columns
  split
  · exact sorted_columns_pairwise_name rows
  · exact mark_autoincrement_pairwise_name _ _ (sorted_columns_pairwise_name rows)

theorem exists_row_of_mem_sqlite_columns {rows : List Sqlite.TableInfoRow} {col : Column}
    (h : col ∈ (Sqlite.get_columns rows).1) :
    ∃ row ∈ rows, col.name = row.name ∧
      col.default = row.dflt_value.map (fun d => replaceAll d "\"" "") ∧
      col.tpe = Sqlite.get_column_type row.type := by
  unfold Sqlite.get_columns at h
  have h' : ∃ c ∈ Sqlite.sorted_columns rows,
      col.name = c.name ∧ col.default = c.default ∧ col.tpe = c.tpe := by
    split at h
    · exact ⟨col, h, rfl, rfl, rfl⟩
    · exact mark_autoincrement_exists_src h
  obtain ⟨c, hc, h1, h2, h3⟩ := h'
  rw [Sqlite.sorted_columns, mem_insertionSortBy] at hc
  rcases List.mem_map.mp hc with ⟨row, hrow, rfl⟩
  exact ⟨row, hrow, h1, h2, h3⟩

theorem sqlite_get_table_ok_name {db : Sqlite.Db} {n : String} {t : Table}
    (h : Sqlite.get_table db n = .ok t) : t.name = n := by
  unfold Sqlite.get_table at h
  cases hfk : Sqlite.get_foreign_keys (db.foreign_key_list n) with
  | panicked m => rw [hfk] at h; cases h
  | ok fks =>
    rw [hfk] at h
    cases h
    rfl

/-- C4: a column described from Postgres has `auto_increment = true` exactly
when its row's `is_identity` is `YES` (matched case-insensitively) or its
canonicalized default equals the sequence pattern
`nextval("<schema>"."<table>_<col>_seq"::regclass)` instantiated with that
schema, table and column name. -/
theorem postgres_auto_increment_iff (schema table : String)
    (rows : List Postgres.ColumnRow) (cols : List Column)
    (h : Postgres.get_columns schema table rows = .ok cols) :
    List.Forall₂ (fun row col =>
      col.auto_increment = true ↔
        (lowerStr row.is_identity = "yes" ∨
          col.default = some (Postgres.nextval_pattern schema table row.column_name)))
      rows cols :=
  List.Forall₂.imp (fun _ _ hrc => (process_column_ok hrc).2.2) (listMapM_ok_forall₂ _ h)

/-- C4 (witness): on three concrete rows — an identity column, a column
whose default canonicalizes to the nextval pattern, and a plain text
column — the equivalence holds as computed. -/
theorem postgres_auto_increment_iff_witness :
    List.Forall₂ (fun (row : Postgres.ColumnRow) (col : Column) =>
      col.auto_increment = true ↔
        (lowerStr row.is_identity = "yes" ∨
          col.default = some (Postgres.nextval_pattern "public" "User" row.column_name)))
      [⟨"id", "int4", some "nextval(\x27\"public\".\"User_id_seq\"\x27::regclass)", "NO", "NO"⟩,
       ⟨"n", "int4", none, "NO", "YES"⟩,
       ⟨"t", "text", none, "YES", "NO"⟩]
      [⟨"id", ⟨"int4", .Int⟩, .Required,
        some "nextval(\"public\".\"User_id_seq\"::regclass)", true⟩,
       ⟨"n", ⟨"int4", .Int⟩, .Required, none, true⟩,
       ⟨"t", ⟨"text", .String⟩, .Nullable, none, false⟩] :=
  postgres_auto_increment_iff "public" "User" _ _ rfl

/-- C7 (amended): for every described column, the reported default is the
raw database default with, on Postgres, every single-quote character and
every `::text` occurrence removed, and, on SQLite, every double-quote
character removed — interior quotes included — while a NULL database
default is reported as no default. -/
theorem described_default_canonicalization (schema table : String) :
    (∀ (rows : List Postgres.ColumnRow) (cols : List Column),
      Postgres.get_columns schema table rows = .ok cols →
      List.Forall₂ (fun row col =>
        col.default = row.column_default.map
          (fun d => replaceAll (replaceAll d "\x27" "") "::text" "")) rows cols) ∧
    (∀ rows : List Sqlite.TableInfoRow, ∀ col ∈ (Sqlite.get_columns rows).1,
      ∃ row ∈ rows, col.name = row.name ∧
        col.default = row.dflt_value.map (fun d => replaceAll d "\"" "")) := by
  constructor
  · intro rows cols h
    exact List.Forall₂.imp (fun _ _ hrc => (process_column_ok hrc).2.1) (listMapM_ok_forall₂ _ h)
  · intro rows col hcol
    obtain ⟨row, hrow, h1, h2, _⟩ := exists_row_of_mem_sqlite_columns hcol
    exact ⟨row, hrow, h1, h2⟩

/-- C7 (amended, witness): a Postgres default `'a''b'::text` is reported as
`ab`, and a NULL default as no default, as the amended claim computes. -/
theorem described_default_canonicalization_witness :
    List.Forall₂ (fun (row : Postgres.ColumnRow) (col : Column) =>
      col.default = row.column_default.map
        (fun d => replaceAll (replaceAll d "\x27" "") "::text" ""))
      [⟨"a", "text", some "\x27a\x27\x27b\x27::text", "YES", "NO"⟩,
       ⟨"b", "text", none, "YES", "NO"⟩]
      [⟨"a", ⟨"text", .String⟩, .Nullable, some "ab", false⟩,
       ⟨"b", ⟨"text", .String⟩, .Nullable, none, false⟩] :=
  (described_default_canonicalization "public" "User").1 _ _ rfl

/-- C8: the schema returned by SQLite describe never contains a table named
`sqlite_sequence`, `sqlite_stat1`, `sqlite_stat2`, `sqlite_stat3` or
`sqlite_stat4`, whatever tables `sqlite_master` lists. -/
theorem sqlite_describe_filters_system_tables (db : Sqlite.Db) (schema : SqlSchema)
    (h : Sqlite.describe db = .ok schema) :
    ∀ t ∈ schema.tables, t.name ∉ Sqlite.SQLITE_SYSTEM_TABLES := by
  unfold Sqlite.describe at h
  cases hm : listMapM (Sqlite.get_table db)
      ((Sqlite.get_table_names db).filter (fun t => !Sqlite.is_system_table t)) with
  | panicked m => rw [hm] at h; cases h
  | ok tables =>
    rw [hm] at h
    cases h
    intro t ht
    obtain ⟨n, hn, hget⟩ := forall₂_mem_right (listMapM_ok_forall₂ _ hm) t ht
    rw [sqlite_get_table_ok_name hget]
    have hfilter := (List.mem_filter.mp hn).2
    simp only [Bool.not_eq_true'] at hfilter
    intro hmem
    rw [Sqlite.is_system_table] at hfilter
    rw [List.any_eq_false] at hfilter
    exact absurd (by simp : (n == n) = true) (hfilter n hmem)

/-- C8 (witness): describing a database whose `sqlite_master` lists `User`,
`sqlite_sequence` and `sqlite_stat1` yields a schema whose only table is
`User`, and that table is not a system table. -/
theorem sqlite_describe_filters_system_tables_witness :
    (⟨"User", [⟨"id", ⟨"integer", .Int⟩, .Required, none, true⟩], [],
       some ⟨["id"], none⟩, []⟩ : Table).name ∉ Sqlite.SQLITE_SYSTEM_TABLES :=
  sqlite_describe_filters_system_tables
    ⟨["User", "sqlite_sequence", "sqlite_stat1"],
     fun _ => [⟨"id", "integer", true, none, 1⟩], fun _ => [], fun _ => [], fun _ => []⟩
    ⟨[], [],
     [⟨"User", [⟨"id", ⟨"integer", .Int⟩, .Required, none, true⟩], [],
       some ⟨["id"], none⟩, []⟩]⟩ rfl
    ⟨"User", [⟨"id", ⟨"integer", .Int⟩, .Required, none, true⟩], [],
     some ⟨["id"], none⟩, []⟩ (by simp)

/-- C9: the column list of every described table is sorted by ascending
column name, for SQLite unconditionally (the describer sorts), and for
Postgres given that the rows arrive in the order the query's
`ORDER BY column_name` imposes; declaration order is not preserved, as the
concrete two-column SQLite table shows. -/
theorem described_columns_sorted_by_name :
    (∀ rows : List Sqlite.TableInfoRow,
      ((Sqlite.get_columns rows).1).Pairwise (fun a b => a.name ≤ b.name)) ∧
    (∀ (schema table : String) (rows : List Postgres.ColumnRow) (cols : List Column),
      rows.Pairwise (fun a b => a.column_name ≤ b.column_name) →
      Postgres.get_columns schema table rows = .ok cols →
      cols.Pairwise (fun a b => a.name ≤ b.name)) ∧
    (Sqlite.get_columns
        [⟨"b", "text", true, none, 0⟩, ⟨"a", "text", true, none, 0⟩]).1.map Column.name =
      ["a", "b"] := by
  refine ⟨sqlite_columns_pairwise_name, ?_, rfl⟩
  intro schema table rows cols hsorted h
  refine pairwise_of_forall₂ ?_ (listMapM_ok_forall₂ _ h) hsorted
  intro a b a' b' ha hb hab
  rw [(process_column_ok ha).1, (process_column_ok hb).1]
  exact hab

/-- C9 (witness): on a concrete Postgres row list sorted by name, the
described columns are sorted by name. -/
theorem described_columns_sorted_by_name_witness :
    ([⟨"a", ⟨"text", .String⟩, .Nullable, none, false⟩,
      ⟨"b", ⟨"int4", .Int⟩, .Required, none, false⟩] : List Column).Pairwise
      (fun a b => a.name ≤ b.name) :=
  described_columns_sorted_by_name.2.1 "public" "User"
    [⟨"a", "text", none, "YES", "NO"⟩, ⟨"b", "int4", none, "NO", "NO"⟩] _
    (by simp [String.le_iff_toList_le]; decide) rfl

theorem sorted_columns_auto_false {rows : List Sqlite.TableInfoRow} {c : Column}
    (h : c ∈ Sqlite.sorted_columns rows) : c.auto_increment = false := by
  rw [Sqlite.sorted_columns, mem_insertionSortBy] at h
  rcases List.mem_map.mp h with ⟨row, _, rfl⟩
  rfl

theorem pk_columns_singleton (k : Int) (v : String) : Sqlite.pk_columns [(k, v)] = [v] := by
  simp [Sqlite.pk_columns, insertionSortBy, insertBy, assocGet]

theorem pk_columns_length (pkc : List (Int × String)) :
    (Sqlite.pk_columns pkc).length = pkc.length := by
  simp [Sqlite.pk_columns, length_insertionSortBy]

/-- C3: a column described from SQLite has `auto_increment = true` exactly
when the table's primary key consists of that one column alone and the
column's raw type is `integer` case-insensitively (the rowid alias); every
other column has `auto_increment = false`. -/
theorem sqlite_auto_increment_iff (rows : List Sqlite.TableInfoRow) (col : Column)
    (h : col ∈ (Sqlite.get_columns rows).1) :
    col.auto_increment = true ↔
      ((Sqlite.get_columns rows).2 = some ⟨[col.name], none⟩ ∧
        lowerStr col.tpe.raw = "integer") := by
  cases hemp : (Sqlite.pk_map rows).isEmpty with
  | true =>
    rw [Sqlite.get_columns, if_pos hemp] at h ⊢
    simp only at h
    simp [sorted_columns_auto_false h]
  | false =>
    rw [Sqlite.get_columns, if_neg (by simp [hemp])] at h ⊢
    simp only at h ⊢
    cases hlen : (Sqlite.pk_map rows).length == 1 with
    | false =>
      rw [Sqlite.mark_autoincrement, if_neg (by simp [hlen])] at h
      have hauto := sorted_columns_auto_false h
      have hne : Sqlite.pk_columns (Sqlite.pk_map rows) ≠ [col.name] := by
        intro heq
        have := pk_columns_length (Sqlite.pk_map rows)
        rw [heq] at this
        simp only [List.length_singleton] at this
        rw [← this] at hlen
        simp at hlen
      simp [hauto, hne]
    | true =>
      obtain ⟨p, hp⟩ := List.length_eq_one.mp (by simpa using hlen)
      rcases p with ⟨k, v⟩
      rw [hp]
      rw [hp] at h
      rw [Sqlite.mark_autoincrement] at h
      rw [if_pos (by simp)] at h
      rw [pk_columns_singleton] at h ⊢
      simp only [List.head?] at h
      rcases List.mem_map.mp h with ⟨c, hc, rfl⟩
      have hauto := sorted_columns_auto_false hc
      by_cases hcond : (c.name == v && lowerStr c.tpe.raw == "integer") = true
      · rw [if_pos hcond]
        simp only [Bool.and_eq_true, beq_iff_eq] at hcond
        simp [hcond.1, hcond.2]
      · rw [if_neg hcond]
        simp only [Bool.and_eq_true, beq_iff_eq] at hcond
        push_neg at hcond
        constructor
        · intro hf
          rw [hauto] at hf
          cases hf
        · rintro ⟨heq, hint⟩
          simp only [Option.some.injEq, PrimaryKey.mk.injEq, List.cons.injEq] at heq
          exact absurd hint (hcond heq.1.1.symm)
  
/-- C3 (witness): in a table whose primary key is the single `INTEGER`
column `id`, the described `id` column is auto-incrementing. -/
theorem sqlite_auto_increment_iff_witness :
    (⟨"id", ⟨"INTEGER", .Int⟩, .Required, none, true⟩ : Column).auto_increment = true ↔
      ((Sqlite.get_columns
          [⟨"id", "INTEGER", true, none, 1⟩, ⟨"name", "text", false, none, 0⟩]).2 =
          some ⟨["id"], none⟩ ∧
        lowerStr ("INTEGER" : String) = "integer") :=
  sqlite_auto_increment_iff
    [⟨"id", "INTEGER", true, none, 1⟩, ⟨"name", "text", false, none, 0⟩]
    ⟨"id", ⟨"INTEGER", .Int⟩, .Required, none, true⟩ (by decide)

theorem fk_rows_for_append_self (i : Int) (done : List Sqlite.FkRow) (r : Sqlite.FkRow)
    (h : r.id = i) :
    Sqlite.fk_rows_for i (done ++ [r]) = Sqlite.fk_rows_for i done ++ [r] := by
  simp [Sqlite.fk_rows_for, List.filter_append, h]

theorem fk_rows_for_append_other (i : Int) (done : List Sqlite.FkRow) (r : Sqlite.FkRow)
    (h : r.id ≠ i) :
    Sqlite.fk_rows_for i (done ++ [r]) = Sqlite.fk_rows_for i done := by
  simp [Sqlite.fk_rows_for, List.filter_append, h]

theorem mem_fk_rows_for {i : Int} {rows : List Sqlite.FkRow} {g : Sqlite.FkRow}
    (h : g ∈ Sqlite.fk_rows_for i rows) : g ∈ rows ∧ g.id = i := by
  simpa [Sqlite.fk_rows_for, List.mem_filter] using h

theorem fk_rows_for_seq_nodup {rows : List Sqlite.FkRow}
    (hdist : rows.Pairwise (fun a b => ¬(a.id = b.id ∧ a.seq = b.seq))) (i : Int) :
    ((Sqlite.fk_rows_for i rows).map Sqlite.FkRow.seq).Nodup := by
  have h1 : (Sqlite.fk_rows_for i rows).Pairwise (fun a b => a.seq ≠ b.seq) := by
    have h2 := List.Pairwise.filter (fun r => r.id == i) hdist
    refine h2.imp_of_mem ?_
    intro a b ha hb hab hseq
    obtain ⟨-, haid⟩ := mem_fk_rows_for ha
    obtain ⟨-, hbid⟩ := mem_fk_rows_for hb
    exact hab ⟨haid.trans hbid.symm, hseq⟩
  exact List.Pairwise.map _ (fun a b h => h) h1

theorem sorted_assoc_lookup (f : Sqlite.FkRow → String) (g : List Sqlite.FkRow)
    (hnd : (g.map Sqlite.FkRow.seq).Nodup) :
    (insertionSortBy intLeB ((g.map (fun r => (r.seq, f r))).map Prod.fst)).map
      (fun i => (assocGet (g.map (fun r => (r.seq, f r))) i).getD "") =
    (insertionSortBy (fun a b => intLeB a.seq b.seq) g).map f := by
  have hkeys : (g.map (fun r => (r.seq, f r))).map Prod.fst = g.map Sqlite.FkRow.seq := by
    simp [List.map_map, Function.comp]
  rw [hkeys]
  rw [← map_insertionSortBy Sqlite.FkRow.seq (fun a b => intLeB a.seq b.seq) intLeB
    (fun x y => rfl) g]
  rw [List.map_map]
  apply List.map_congr_left
  intro r hr
  rw [mem_insertionSortBy] at hr
  have hget : assocGet (g.map (fun r => (r.seq, f r))) r.seq = some (f r) := by
    apply assocGet_of_mem_nodup
    · rw [hkeys]; exact hnd
    · exact List.mem_map.mpr ⟨r, hr, rfl⟩
  simp [Function.comp, hget]

theorem materialize_fk_columns {rows : List Sqlite.FkRow} {i : Int}
    {ifk : Sqlite.IntermediateForeignKey}
    (hnd : ((Sqlite.fk_rows_for i rows).map Sqlite.FkRow.seq).Nodup)
    (hc : ifk.columns = (Sqlite.fk_rows_for i rows).map (fun r => (r.seq, r.from_)))
    (hrc : ifk.referenced_columns = (Sqlite.fk_rows_for i rows).map (fun r => (r.seq, r.to_))) :
    (Sqlite.materialize_fk ifk).columns =
      (Sqlite.fk_rows_by_seq i rows).map Sqlite.FkRow.from_ ∧
    (Sqlite.materialize_fk ifk).referenced_columns =
      (Sqlite.fk_rows_by_seq i rows).map Sqlite.FkRow.to_ := by
  unfold Sqlite.materialize_fk Sqlite.fk_rows_by_seq
  dsimp only
  rw [hc, hrc]
  exact ⟨sorted_assoc_lookup Sqlite.FkRow.from_ _ hnd, sorted_assoc_lookup Sqlite.FkRow.to_ _ hnd⟩

theorem fk_fold_inv :
    ∀ (todo done : List Sqlite.FkRow) (m m' : List (Int × Sqlite.IntermediateForeignKey)),
      (done ++ todo).Pairwise (fun a b => ¬(a.id = b.id ∧ a.seq = b.seq)) →
      Sqlite.FkInv done m →
      listFoldlM Sqlite.fk_step m todo = .ok m' →
      Sqlite.FkInv (done ++ todo) m' := by
  intro todo
  induction todo with
  | nil =>
    intro done m m' _ hinv h
    simp only [listFoldlM] at h
    cases h
    simpa using hinv
  | cons r rs ih =>
    intro done m m' hdist hinv h
    obtain ⟨m₁, hstep, hrest⟩ := listFoldlM_ok_step _ h
    have hr_done : ∀ d ∈ done, ¬(d.id = r.id ∧ d.seq = r.seq) := by
      rw [List.pairwise_append] at hdist
      intro d hd
      exact hdist.2.2 d hd r (List.mem_cons_self _ _)
    obtain ⟨hnd, hdone_keys, hentries⟩ := hinv
    have hstep_inv : Sqlite.FkInv (done ++ [r]) m₁ := by
      unfold Sqlite.fk_step at hstep
      cases hget : assocGet m r.id with
      | some ifk =>
        rw [hget] at hstep
        cases hstep
        refine ⟨?_, ?_, ?_⟩
        · rw [keys_assocUpdate]
          exact hnd
        · intro d hd
          rw [keys_assocUpdate]
          rcases List.mem_append.mp hd with hd | hd
          · exact hdone_keys d hd
          · have hd' := List.mem_singleton.mp hd
            rw [hd']
            exact List.mem_map.mpr ⟨(r.id, ifk), assocGet_mem hget, rfl⟩
        · intro p hp
          rcases mem_assocUpdate_nodup hnd p hp with ⟨v, hv, rfl⟩ | ⟨hpm, hpne⟩
          · obtain ⟨hc, hrc, r0, rest, hgrp, htab, hact⟩ := hentries (r.id, v) hv
            have hfreshc : (r.seq : Int) ∉ (v.columns).map Prod.fst := by
              rw [hc]
              intro hmem
              simp only [List.map_map, List.mem_map, Function.comp] at hmem
              obtain ⟨grow, hgrow, hgseq⟩ := hmem
              obtain ⟨hgmem, hgid⟩ := mem_fk_rows_for hgrow
              exact hr_done grow hgmem ⟨hgid, hgseq⟩
            have hfreshr : (r.seq : Int) ∉ (v.referenced_columns).map Prod.fst := by
              rw [hrc]
              intro hmem
              simp only [List.map_map, List.mem_map, Function.comp] at hmem
              obtain ⟨grow, hgrow, hgseq⟩ := hmem
              obtain ⟨hgmem, hgid⟩ := mem_fk_rows_for hgrow
              exact hr_done grow hgmem ⟨hgid, hgseq⟩
            refine ⟨?_, ?_, r0, rest ++ [r], ?_, ?_, ?_⟩
            · dsimp only
              rw [assocInsert_of_not_mem hfreshc, hc,
                fk_rows_for_append_self r.id done r rfl, List.map_append]
              rfl
            · dsimp only
              rw [assocInsert_of_not_mem hfreshr, hrc,
                fk_rows_for_append_self r.id done r rfl, List.map_append]
              rfl
            · rw [fk_rows_for_append_self r.id done r rfl, hgrp]
              rfl
            · exact htab
            · exact hact
          · obtain ⟨hc, hrc, r0, rest, hgrp, htab, hact⟩ := hentries p hpm
            rw [fk_rows_for_append_other p.1 done r (Ne.symm hpne)]
            exact ⟨hc, hrc, r0, rest, hgrp, htab, hact⟩
      | none =>
        rw [hget] at hstep
        cases hparse : Sqlite.parse_on_delete r.on_delete with
        | panicked msg =>
          rw [hparse] at hstep
          cases hstep
        | ok act =>
          rw [hparse] at hstep
          cases hstep
          have hnotin : r.id ∉ m.map Prod.fst := (assocGet_eq_none m r.id).mp hget
          have hgrp_empty : Sqlite.fk_rows_for r.id done = [] := by
            cases hemp : Sqlite.fk_rows_for r.id done with
            | nil => rfl
            | cons g gs =>
              have hg : g ∈ Sqlite.fk_rows_for r.id done := by
                rw [hemp]
                exact List.mem_cons_self _ _
              obtain ⟨hgmem, hgid⟩ := mem_fk_rows_for hg
              exact absurd (hgid ▸ hdone_keys g hgmem) hnotin
          refine ⟨?_, ?_, ?_⟩
          · simp only [List.map_append, List.map_cons, List.map_nil]
            simp [List.nodup_append, hnd, hnotin]
          · intro d hd
            simp only [List.map_append, List.map_cons, List.map_nil]
            rcases List.mem_append.mp hd with hd | hd
            · exact List.mem_append.mpr (Or.inl (hdone_keys d hd))
            · rcases List.mem_singleton.mp hd with rfl
              exact List.mem_append.mpr (Or.inr (by simp))
          · intro p hp
            rcases List.mem_append.mp hp with hpm | hpnew
            · have hpne : p.1 ≠ r.id := by
                intro heq
                exact hnotin (heq ▸ List.mem_map.mpr ⟨p, hpm, rfl⟩)
              obtain ⟨hc, hrc, r0, rest, hgrp, htab, hact⟩ := hentries p hpm
              rw [fk_rows_for_append_other p.1 done r (Ne.symm hpne)]
              exact ⟨hc, hrc, r0, rest, hgrp, htab, hact⟩
            · rcases List.mem_singleton.mp hpnew with rfl
              refine ⟨?_, ?_, r, [], ?_, rfl, by simpa using hparse⟩
              · dsimp only
                rw [fk_rows_for_append_self r.id done r rfl, hgrp_empty]
                rfl
              · dsimp only
                rw [fk_rows_for_append_self r.id done r rfl, hgrp_empty]
                rfl
              · rw [fk_rows_for_append_self r.id done r rfl, hgrp_empty]
                rfl
    have := ih (done ++ [r]) m₁ m' ?_ hstep_inv hrest
    · rw [List.append_cons]
      exact this
    · rw [← List.append_cons]
      exact hdist

/-- C6: for every SQLite table, `get_foreign_keys` merges all
`PRAGMA foreign_key_list` rows sharing an `id` into one foreign key whose
`columns` and `referenced_columns` follow ascending `seq`, takes the
referenced table and the case-insensitively parsed `on_delete` action
(recognizing exactly `no action`, `restrict`, `set null`, `set default`,
`cascade`) from the constraint's first row, returns the foreign keys
sorted by their column list, and leaves every `constraint_name` absent.
The rows are assumed well-formed (no two rows share `(id, seq)`), which
`PRAGMA foreign_key_list` guarantees. -/
theorem sqlite_foreign_keys_grouped_sorted (rows : List Sqlite.FkRow) (fks : List ForeignKey)
    (hdist : rows.Pairwise (fun a b => ¬(a.id = b.id ∧ a.seq = b.seq)))
    (h : Sqlite.get_foreign_keys rows = .ok fks) :
    (∀ fk ∈ fks, fk.constraint_name = none) ∧
    fks.Pairwise (fun a b => a.columns ≤ b.columns) ∧
    (∀ fk ∈ fks, ∃ i r0 rest,
      Sqlite.fk_rows_for i rows = r0 :: rest ∧
      fk.columns = (Sqlite.fk_rows_by_seq i rows).map Sqlite.FkRow.from_ ∧
      fk.referenced_columns = (Sqlite.fk_rows_by_seq i rows).map Sqlite.FkRow.to_ ∧
      fk.referenced_table = r0.table ∧
      Sqlite.parse_on_delete r0.on_delete = .ok fk.on_delete_action) ∧
    (∀ r ∈ rows, ∃ fk ∈ fks,
      fk.columns = (Sqlite.fk_rows_by_seq r.id rows).map Sqlite.FkRow.from_) ∧
    (∀ (s : String) (act : ForeignKeyAction),
      Sqlite.parse_on_delete s = .ok act ↔
        (lowerStr s, act) ∈ [("no action", ForeignKeyAction.NoAction),
          ("restrict", ForeignKeyAction.Restrict), ("set null", ForeignKeyAction.SetNull),
          ("set default", ForeignKeyAction.SetDefault),
          ("cascade", ForeignKeyAction.Cascade)]) := by
  unfold Sqlite.get_foreign_keys at h
  cases hfold : listFoldlM Sqlite.fk_step [] rows with
  | panicked msg => rw [hfold] at h; cases h
  | ok m =>
    rw [hfold] at h
    cases h
    have hinv := fk_fold_inv rows [] [] m (by simpa using hdist)
      ⟨by simp, by simp, by simp⟩ hfold
    rw [List.nil_append] at hinv
    obtain ⟨hnd, hkeys, hentries⟩ := hinv
    refine ⟨?_, ?_, ?_, ?_, ?_⟩
    · intro fk hfk
      rw [mem_insertionSortBy] at hfk
      rcases List.mem_map.mp hfk with ⟨p, hpm, rfl⟩
      rfl
    · have htot : ∀ x y : ForeignKey,
          strListLeB x.columns y.columns = true ∨ strListLeB y.columns x.columns = true := by
        intro x y
        rcases le_total x.columns y.columns with hle | hle
        · exact Or.inl ((strListLeB_iff _ _).mpr hle)
        · exact Or.inr ((strListLeB_iff _ _).mpr hle)
      have htr : ∀ x y z : ForeignKey, strListLeB x.columns y.columns = true →
          strListLeB y.columns z.columns = true → strListLeB x.columns z.columns = true := by
        intro x y z hxy hyz
        exact (strListLeB_iff _ _).mpr
          (le_trans ((strListLeB_iff _ _).mp hxy) ((strListLeB_iff _ _).mp hyz))
      have hp := pairwise_insertionSortBy (fun a b : ForeignKey => strListLeB a.columns b.columns)
        htot htr (m.map (fun p => Sqlite.materialize_fk p.2))
      exact hp.imp (fun hab => (strListLeB_iff _ _).mp hab)
    · intro fk hfk
      rw [mem_insertionSortBy] at hfk
      rcases List.mem_map.mp hfk with ⟨p, hpm, rfl⟩
      obtain ⟨hc, hrc, r0, rest, hgrp, htab, hact⟩ := hentries p hpm
      obtain ⟨hcols, hrefs⟩ :=
        materialize_fk_columns (fk_rows_for_seq_nodup hdist p.1) hc hrc
      exact ⟨p.1, r0, rest, hgrp, hcols, hrefs, htab, hact⟩
    · intro r hr
      obtain ⟨p, hpm, hpfst⟩ := List.mem_map.mp (hkeys r hr)
      refine ⟨Sqlite.materialize_fk p.2, ?_, ?_⟩
      · rw [mem_insertionSortBy]
        exact List.mem_map.mpr ⟨p, hpm, rfl⟩
      · obtain ⟨hc, hrc, r0, rest, hgrp, htab, hact⟩ := hentries p hpm
        obtain ⟨hcols, -⟩ :=
          materialize_fk_columns (fk_rows_for_seq_nodup hdist p.1) hc hrc
        rw [← hpfst]
        exact hcols
    · intro s act
      unfold Sqlite.parse_on_delete
      split_ifs with h1 h2 h3 h4 h5
      · rw [h1]; cases act <;> decide
      · rw [h2]; cases act <;> decide
      · rw [h3]; cases act <;> decide
      · rw [h4]; cases act <;> decide
      · rw [h5]; cases act <;> decide
      · simp [h1, h2, h3, h4, h5]

/-- C6 (witness): for the concrete row list of a two-column constraint
(listed with its `seq` values out of order) and a one-column constraint,
every produced foreign key has no constraint name — obtained by
instantiating the claim's theorem, whose other conjuncts give the grouping,
ordering and sorting for the same input. -/
theorem sqlite_foreign_keys_grouped_sorted_witness :
    (⟨none, ["a"], "C", ["id"], ForeignKeyAction.SetNull⟩ : ForeignKey).constraint_name = none ∧
    (⟨none, ["b1", "b2"], "B", ["id1", "id2"],
      ForeignKeyAction.Cascade⟩ : ForeignKey).constraint_name = none ∧
    List.Pairwise (fun a b : ForeignKey => a.columns ≤ b.columns)
      [⟨none, ["a"], "C", ["id"], ForeignKeyAction.SetNull⟩,
       ⟨none, ["b1", "b2"], "B", ["id1", "id2"], ForeignKeyAction.Cascade⟩] :=
  have h := sqlite_foreign_keys_grouped_sorted
    [⟨0, 1, "B", "b2", "id2", "CASCADE"⟩, ⟨0, 0, "B", "b1", "id1", "CASCADE"⟩,
     ⟨1, 0, "C", "a", "id", "set null"⟩]
    [⟨none, ["a"], "C", ["id"], ForeignKeyAction.SetNull⟩,
     ⟨none, ["b1", "b2"], "B", ["id1", "id2"], ForeignKeyAction.Cascade⟩]
    (by decide) rfl
  ⟨h.1 _ (by simp), h.1 _ (by simp), h.2.1⟩
